import Mathlib

/-!
Verification of the AES-256-CBC file-encryption module (`AES.py`).

The module wraps an external block-cipher primitive (the `cryptography`
package's AES) in CBC mode with PKCS7 padding and base64 transport
encoding.  We embed the Python code shallowly:

* Python `bytes` objects become `List Byte` with `Byte := Fin 256`;
* the external AES block primitive (explicitly out of scope for the
  repository, supplied by the vetted `cryptography` package) is a
  parameter `BlockCipher`, assumed to satisfy `GoodCipher` (a block
  permutation on 16-byte blocks), exactly the contract the library
  guarantees;
* `os.urandom` is modelled by passing the generated IV as an explicit
  argument;
* Python exceptions become explicit result constructors.

Each method of `AESCipher` (`__init__`, `encrypt`, `decrypt`, `_pad`,
`_unpad`) is translated line by line below, keeping the source names.
-/

/-- Bytes are natural numbers below 256, as in Python `bytes` objects. -/
abbrev Byte := Fin 256

/-- Source: `block_size = int(algorithms.AES.block_size / 8)`; AES has 128-bit
blocks, so this is 16. -/
def AESCipher.block_size : Nat := 128 / 8

/-- Evaluation of the block size constant. -/
theorem block_size_eq : AESCipher.block_size = 16 := rfl

/-- Bytewise xor, the elementary operation of CBC chaining. -/
def xorByte (a b : Byte) : Byte :=
  ⟨a.val ^^^ b.val, by
    have h : a.val ^^^ b.val < 2 ^ 8 :=
      Nat.xor_lt_two_pow (by exact a.isLt) (by exact b.isLt)
    exact h⟩

/-- Bytewise xor of two byte strings (pointwise, truncating to the shorter). -/
def xorBytes (a b : List Byte) : List Byte := List.zipWith xorByte a b

/-- Result of `AESCipher.__init__`: either the stored key or the raised
`ValueError`. -/
inductive InitResult where
  | ok (key : List Byte)
  | valueError (msg : String)
deriving DecidableEq

/-- Source, `__init__`: `if len(key) * 8 != 256: raise ValueError('Invalid key
size (must be 256 bit)')` and otherwise `self._key = key`. -/
def AESCipher.init (key : List Byte) : InitResult :=
  if key.length * 8 = 256 then InitResult.ok key
  else InitResult.valueError "Invalid key size (must be 256 bit)"

/-- Value of the PKCS7 padding byte for a given input length: the source's
`ordinal = AESCipher.block_size - len(raw) % AESCipher.block_size`. -/
def padByte (len : Nat) : Byte :=
  ⟨AESCipher.block_size - len % AESCipher.block_size, by
    simp only [AESCipher.block_size]
    omega⟩

/-- Source, `_pad`: `return raw + bytes([ordinal] * ordinal)` with
`ordinal = AESCipher.block_size - len(raw) % AESCipher.block_size`. -/
def AESCipher._pad (raw : List Byte) : List Byte :=
  raw ++ List.replicate (AESCipher.block_size - raw.length % AESCipher.block_size)
    (padByte raw.length)

/-- Source, `_unpad`: `return padded[:-padded[-1]]`.  On an empty input,
`padded[-1]` raises `IndexError`, modelled by `none`.  Otherwise, with
`n = padded[-1]`, the Python slice `padded[:-n]` is the whole input minus its
last `n` bytes when `0 < n < len(padded)`, and the empty string when `n = 0`
(since `padded[:-0]` is `padded[:0]`) or `n ≥ len(padded)`. -/
def AESCipher._unpad (padded : List Byte) : Option (List Byte) :=
  match padded.getLast? with
  | none => none
  | some n =>
    if n.val = 0 then some []
    else some (padded.take (padded.length - n.val))

/-- Strict PKCS7 removal following the specification's words (section 4.2):
reads the last byte `n`; fails when `n` is `0`, exceeds the block size or the
buffer length, or when any of the last `n` bytes differs from `n`; otherwise
strips the last `n` bytes.  Stated only to compare with the source's
`AESCipher._unpad`. -/
def unpadSpec (padded : List Byte) : Option (List Byte) :=
  match padded.getLast? with
  | none => none
  | some n =>
    if n.val = 0 ∨ AESCipher.block_size < n.val ∨ padded.length < n.val ∨
        padded.drop (padded.length - n.val) ≠ List.replicate n.val n
    then none
    else some (padded.take (padded.length - n.val))

/-- Helper: the padding byte's numeric value. -/
theorem padByte_val (len : Nat) :
    (padByte len).val = AESCipher.block_size - len % AESCipher.block_size := rfl

/-- Helper: the amount of padding is between 1 and 16. -/
theorem pad_amount_bounds (len : Nat) :
    1 ≤ AESCipher.block_size - len % AESCipher.block_size ∧
      AESCipher.block_size - len % AESCipher.block_size ≤ AESCipher.block_size := by
  simp only [block_size_eq]
  omega

/-- Helper: length of the padded buffer. -/
theorem pad_length (raw : List Byte) :
    (AESCipher._pad raw).length =
      raw.length + (AESCipher.block_size - raw.length % AESCipher.block_size) := by
  simp [AESCipher._pad]

/-- Helper: the padded length is a multiple of the block size. -/
theorem pad_length_mod (raw : List Byte) :
    (AESCipher._pad raw).length % AESCipher.block_size = 0 := by
  rw [pad_length]
  simp only [block_size_eq]
  omega

/-- Helper: the last element of the padded buffer is the padding byte. -/
theorem pad_getLast? (raw : List Byte) :
    (AESCipher._pad raw).getLast? = some (padByte raw.length) := by
  unfold AESCipher._pad
  obtain ⟨k, hk⟩ : ∃ k, AESCipher.block_size - raw.length % AESCipher.block_size = k + 1 := by
    have h := pad_amount_bounds raw.length
    exact ⟨AESCipher.block_size - raw.length % AESCipher.block_size - 1, by omega⟩
  rw [hk, List.replicate_succ', ← List.append_assoc, List.getLast?_concat]

/-- Helper: removing the source's padding recovers the original buffer. -/
theorem unpad_pad (raw : List Byte) :
    AESCipher._unpad (AESCipher._pad raw) = some raw := by
  simp only [AESCipher._unpad, pad_getLast?]
  have hb := pad_amount_bounds raw.length
  rw [if_neg (by rw [padByte_val]; omega)]
  rw [pad_length, padByte_val]
  have hlen : raw.length + (AESCipher.block_size - raw.length % AESCipher.block_size) -
      (AESCipher.block_size - raw.length % AESCipher.block_size) = raw.length := by omega
  rw [hlen]
  unfold AESCipher._pad
  rw [List.take_left]

/-- C9: the padding codec round-trips on its own: for every byte sequence
`raw`, `_unpad (_pad raw) = raw`. -/
theorem C9_unpad_pad_roundtrip (raw : List Byte) :
    AESCipher._unpad (AESCipher._pad raw) = some raw :=
  unpad_pad raw

/-- C6: `_pad` appends exactly `n` bytes, each of value `n`, where
`n = block_size - (len mod block_size)` and `1 ≤ n ≤ block_size`; the padded
length is `len + n`, a multiple of the block size and strictly greater than
`len` (so a block-aligned input still gains a full block of padding), and
`_pad` is total (never fails). -/
theorem C6_pad_pkcs7 (raw : List Byte) :
    (AESCipher._pad raw).take raw.length = raw ∧
    (AESCipher._pad raw).drop raw.length =
      List.replicate (AESCipher.block_size - raw.length % AESCipher.block_size)
        (padByte raw.length) ∧
    (padByte raw.length).val = AESCipher.block_size - raw.length % AESCipher.block_size ∧
    1 ≤ AESCipher.block_size - raw.length % AESCipher.block_size ∧
    AESCipher.block_size - raw.length % AESCipher.block_size ≤ AESCipher.block_size ∧
    (AESCipher._pad raw).length =
      raw.length + (AESCipher.block_size - raw.length % AESCipher.block_size) ∧
    (AESCipher._pad raw).length % AESCipher.block_size = 0 ∧
    raw.length < (AESCipher._pad raw).length ∧
    (raw.length % AESCipher.block_size = 0 →
      (AESCipher._pad raw).length = raw.length + AESCipher.block_size) :=
  ⟨by unfold AESCipher._pad; rw [List.take_left],
   by unfold AESCipher._pad; rw [List.drop_left],
   padByte_val raw.length,
   (pad_amount_bounds raw.length).1,
   (pad_amount_bounds raw.length).2,
   pad_length raw,
   pad_length_mod raw,
   by rw [pad_length]; have h := pad_amount_bounds raw.length; omega,
   fun h => by rw [pad_length, h]; simp only [block_size_eq]⟩

/-- C6 witness: a 16-byte (block-aligned) input pads to 32 bytes with a full
block of bytes of value 16. -/
theorem C6_pad_pkcs7_witness :
    (AESCipher._pad (List.replicate 16 (0 : Byte))).length =
      (List.replicate 16 (0 : Byte)).length + AESCipher.block_size :=
  (C6_pad_pkcs7 (List.replicate 16 (0 : Byte))).2.2.2.2.2.2.2.2 (by decide)

/-- C5: construction succeeds exactly on 32-byte (256-bit) keys; any other
byte length raises the `ValueError` naming the 256-bit requirement.  (A
bit-length such as 511 is not expressible by a Python `bytes` object, whose
bit-length is always `8 * len`; every non-32-byte key is rejected.) -/
theorem C5_key_size (key : List Byte) :
    (key.length = 32 → AESCipher.init key = InitResult.ok key) ∧
    (key.length ≠ 32 →
      AESCipher.init key = InitResult.valueError "Invalid key size (must be 256 bit)") := by
  constructor
  · intro h
    simp [AESCipher.init, h]
  · intro h
    rw [AESCipher.init, if_neg (by omega)]

/-- C5 witness: the 32-zero-byte key is accepted; the empty key is rejected
with the `ValueError` message. -/
theorem C5_key_size_witness :
    AESCipher.init (List.replicate 32 (0 : Byte)) =
      InitResult.ok (List.replicate 32 (0 : Byte)) ∧
    AESCipher.init [] = InitResult.valueError "Invalid key size (must be 256 bit)" :=
  ⟨(C5_key_size (List.replicate 32 (0 : Byte))).1 (by simp),
   (C5_key_size []).2 (by simp)⟩

/-- C10: on every nonempty input `b`, `_unpad` succeeds, returning `[]` when
the last byte is `0` and the first `len b - b[-1]` bytes otherwise (so `[]`
again when `b[-1] ≥ len b`); on the empty input it raises `IndexError`
(modelled as `none`). -/
theorem C10_unpad_total (b : List Byte) (h : b ≠ []) :
    AESCipher._unpad [] = none ∧
    ((b.getLast h).val = 0 → AESCipher._unpad b = some []) ∧
    ((b.getLast h).val ≠ 0 →
      AESCipher._unpad b = some (b.take (b.length - (b.getLast h).val))) := by
  refine ⟨rfl, ?_, ?_⟩ <;> intro hv <;>
    simp [AESCipher._unpad, List.getLast?_eq_getLast b h, hv]

/-- C10 witness: `_unpad [2, 1]` strips one byte, giving `[2]`. -/
theorem C10_unpad_total_witness :
    AESCipher._unpad [(2 : Byte), 1] = some [(2 : Byte)] :=
  (C10_unpad_total [(2 : Byte), 1] (by decide)).2.2 (by decide)

/-- C4 counterexample: on input `[0]` the specification's strict validation
fails with `PaddingError` (the pad count is `0`), but the source's `_unpad`
returns the empty buffer instead of an error. -/
theorem C4_unpad_validation_cex :
    unpadSpec [(0 : Byte)] = none ∧ AESCipher._unpad [(0 : Byte)] = some [] := by
  decide

/-- C4 (amended): the source's `_unpad` performs no padding validation at all:
on every nonempty input it succeeds (never a `PaddingError`), returning a
strictly shorter initial segment of its input. -/
theorem C4_unpad_no_validation (b : List Byte) (h : b ≠ []) :
    ∃ r, AESCipher._unpad b = some r ∧ b.take r.length = r ∧ r.length < b.length := by
  have hlast := List.getLast?_eq_getLast b h
  by_cases hv : (b.getLast h).val = 0
  · refine ⟨[], ?_, rfl, ?_⟩
    · simp [AESCipher._unpad, hlast, hv]
    · simp only [List.length_nil]
      exact List.length_pos.mpr h
  · refine ⟨b.take (b.length - (b.getLast h).val), ?_, ?_, ?_⟩
    · simp [AESCipher._unpad, hlast, hv]
    · rw [List.length_take]
      have hm : (b.length - (b.getLast h).val) ⊓ b.length =
          b.length - (b.getLast h).val := by omega
      rw [hm]
    · rw [List.length_take]
      have hpos : 0 < b.length := List.length_pos.mpr h
      omega

/-- C4 witness: `_unpad [1, 2, 3]` succeeds with a strict initial segment. -/
theorem C4_unpad_no_validation_witness :
    ∃ r, AESCipher._unpad [(1 : Byte), 2, 3] = some r ∧
      ([(1 : Byte), 2, 3] : List Byte).take r.length = r ∧ r.length < 3 :=
  C4_unpad_no_validation [(1 : Byte), 2, 3] (by decide)

/-- Character of the base64 alphabet at index `i < 64`: `A-Z`, `a-z`, `0-9`,
`+`, `/` (as ASCII byte values), as used by `base64.b64encode`. -/
def b64get (i : Nat) : Byte :=
  if h : i < 26 then ⟨65 + i, by omega⟩
  else if h : i < 52 then ⟨97 + (i - 26), by omega⟩
  else if h : i < 62 then ⟨48 + (i - 52), by omega⟩
  else if i = 62 then ⟨43, by omega⟩
  else ⟨47, by omega⟩

/-- Index of a byte in the base64 alphabet, or `none` when the byte is not an
alphabet character (in particular for the padding character `=`, byte 61). -/
def b64inv (c : Byte) : Option (Fin 64) :=
  if h : 65 ≤ c.val ∧ c.val ≤ 90 then some ⟨c.val - 65, by omega⟩
  else if h : 97 ≤ c.val ∧ c.val ≤ 122 then some ⟨(c.val - 97) + 26, by omega⟩
  else if h : 48 ≤ c.val ∧ c.val ≤ 57 then some ⟨(c.val - 48) + 52, by omega⟩
  else if c.val = 43 then some ⟨62, by omega⟩
  else if c.val = 47 then some ⟨63, by omega⟩
  else none

/-- Source boundary, `base64.b64encode`: standard base64 of a byte string,
three bytes to four characters, with `=` (byte 61) padding the final group. -/
def b64encode : List Byte → List Byte
  | [] => []
  | [a] => [b64get (a.val / 4), b64get (a.val % 4 * 16), 61, 61]
  | [a, b] =>
    [b64get (a.val / 4), b64get (a.val % 4 * 16 + b.val / 16), b64get (b.val % 16 * 4), 61]
  | a :: b :: c :: rest =>
    b64get (a.val / 4) :: b64get (a.val % 4 * 16 + b.val / 16) ::
      b64get (b.val % 16 * 4 + c.val / 64) :: b64get (c.val % 64) :: b64encode rest

/-- Decoding of one full base64 group of four alphabet characters into three
bytes; fails when a character is outside the alphabet. -/
def decode4 (c1 c2 c3 c4 : Byte) : Option (List Byte) :=
  match b64inv c1, b64inv c2, b64inv c3, b64inv c4 with
  | some i1, some i2, some i3, some i4 =>
    some [⟨i1.val * 4 + i2.val / 16, by have := i1.isLt; have := i2.isLt; omega⟩,
          ⟨i2.val % 16 * 16 + i3.val / 4, by have := i2.isLt; have := i3.isLt; omega⟩,
          ⟨i3.val % 4 * 64 + i4.val, by have := i3.isLt; have := i4.isLt; omega⟩]
  | _, _, _, _ => none

/-- Source boundary, `base64.b64decode`: inverse transform, processing four
characters at a time; a final group may carry one or two `=` padding
characters; anything else (wrong group length, non-alphabet character,
misplaced padding) raises `binascii.Error`, modelled by `none`. -/
def b64decode : List Byte → Option (List Byte)
  | [] => some []
  | c1 :: c2 :: c3 :: c4 :: rest =>
    if c4 = (61 : Byte) then
      if rest = [] then
        if c3 = (61 : Byte) then
          match b64inv c1, b64inv c2 with
          | some i1, some i2 =>
            some [⟨i1.val * 4 + i2.val / 16, by have := i1.isLt; have := i2.isLt; omega⟩]
          | _, _ => none
        else
          match b64inv c1, b64inv c2, b64inv c3 with
          | some i1, some i2, some i3 =>
            some [⟨i1.val * 4 + i2.val / 16, by have := i1.isLt; have := i2.isLt; omega⟩,
                  ⟨i2.val % 16 * 16 + i3.val / 4, by have := i2.isLt; have := i3.isLt; omega⟩]
          | _, _, _ => none
      else none
    else
      match decode4 c1 c2 c3 c4, b64decode rest with
      | some bs, some r => some (bs ++ r)
      | _, _ => none
  | _ => none

/-- Helper: the alphabet inversion recovers every index. -/
theorem b64inv_b64get : ∀ i : Fin 64, b64inv (b64get i.val) = some i := by decide

/-- Helper: no alphabet character is the padding character `=`. -/
theorem b64get_ne_eq : ∀ i : Fin 64, b64get i.val ≠ (61 : Byte) := by decide

/-- Helper: decoding the four characters encoding three bytes recovers them. -/
theorem decode4_encode (a b c : Byte) :
    decode4 (b64get (a.val / 4)) (b64get (a.val % 4 * 16 + b.val / 16))
      (b64get (b.val % 16 * 4 + c.val / 64)) (b64get (c.val % 64)) = some [a, b, c] := by
  have ha := a.isLt
  have hb := b.isLt
  have hc := c.isLt
  have h1 := b64inv_b64get ⟨a.val / 4, by omega⟩
  have h2 := b64inv_b64get ⟨a.val % 4 * 16 + b.val / 16, by omega⟩
  have h3 := b64inv_b64get ⟨b.val % 16 * 4 + c.val / 64, by omega⟩
  have h4 := b64inv_b64get ⟨c.val % 64, by omega⟩
  simp only [decode4, h1, h2, h3, h4, Option.some.injEq, List.cons.injEq, and_true]
  refine ⟨?_, ?_, ?_⟩ <;> (apply Fin.ext; simp only [Fin.val_mk]; omega)

/-- Helper: base64 decoding inverts base64 encoding. -/
theorem b64_roundtrip (l : List Byte) : b64decode (b64encode l) = some l := by
  match l with
  | [] => rfl
  | [a] =>
    have ha := a.isLt
    have h1 := b64inv_b64get ⟨a.val / 4, by omega⟩
    have h2 := b64inv_b64get ⟨a.val % 4 * 16, by omega⟩
    simp only [b64encode, b64decode, eq_self_iff_true, if_true, h1, h2, Option.some.injEq,
      List.cons.injEq, and_true]
    apply Fin.ext
    simp only [Fin.val_mk]
    omega
  | [a, b] =>
    have ha := a.isLt
    have hb := b.isLt
    have h1 := b64inv_b64get ⟨a.val / 4, by omega⟩
    have h2 := b64inv_b64get ⟨a.val % 4 * 16 + b.val / 16, by omega⟩
    have h3 := b64inv_b64get ⟨b.val % 16 * 4, by omega⟩
    have hne := b64get_ne_eq ⟨b.val % 16 * 4, by omega⟩
    simp only [b64encode, b64decode, eq_self_iff_true, if_true, if_neg hne, h1, h2, h3,
      Option.some.injEq, List.cons.injEq, and_true]
    refine ⟨?_, ?_⟩ <;> (apply Fin.ext; simp only [Fin.val_mk]; omega)
  | a :: b :: c :: rest =>
    have hc := c.isLt
    have ih := b64_roundtrip rest
    have hne := b64get_ne_eq ⟨c.val % 64, by omega⟩
    simp only [b64encode, b64decode, if_neg hne, decode4_encode, ih, List.cons_append,
      List.nil_append]
termination_by l.length
decreasing_by simp only [List.length_cons]; omega

/-- External block-cipher primitive (the `cryptography` package's AES round
function), declared out of scope by the repository and therefore a parameter
of the embedding: one function encrypting a single 16-byte block under a key,
and its inverse. -/
structure BlockCipher where
  encBlock : List Byte → List Byte → List Byte
  decBlock : List Byte → List Byte → List Byte

/-- Contract assumed of the external primitive under a given key (what the
vetted library guarantees): both directions map 16-byte blocks to 16-byte
blocks and decryption inverts encryption. -/
def GoodCipher (bc : BlockCipher) (key : List Byte) : Prop :=
  (∀ b, b.length = AESCipher.block_size →
    (bc.encBlock key b).length = AESCipher.block_size) ∧
  (∀ c, c.length = AESCipher.block_size →
    (bc.decBlock key c).length = AESCipher.block_size) ∧
  (∀ b, b.length = AESCipher.block_size → bc.decBlock key (bc.encBlock key b) = b)

/-- Division of a byte string into consecutive 16-byte blocks (the last block
shorter if the length is not a multiple of 16), as the CBC driver consumes
its input. -/
def toBlocksGo : Nat → List Byte → List (List Byte)
  | _, [] => []
  | 0, _ :: _ => []
  | fuel + 1, a :: l =>
    (a :: l).take AESCipher.block_size :: toBlocksGo fuel ((a :: l).drop AESCipher.block_size)

/-- Division of a byte string into its consecutive 16-byte blocks, wrapped so
that the fuel argument (the buffer length, an upper bound on the number of
blocks) is implicit. -/
def toBlocks (l : List Byte) : List (List Byte) := toBlocksGo l.length l

/-- CBC encryption chaining: each plaintext block is xored with the previous
ciphertext block (initially the IV) before the block cipher is applied. -/
def cbcEncBlocks (bc : BlockCipher) (key : List Byte) :
    List Byte → List (List Byte) → List (List Byte)
  | _, [] => []
  | prev, b :: bs =>
    bc.encBlock key (xorBytes b prev) :: cbcEncBlocks bc key (bc.encBlock key (xorBytes b prev)) bs

/-- CBC decryption chaining: each ciphertext block is deciphered and xored
with the previous ciphertext block (initially the IV). -/
def cbcDecBlocks (bc : BlockCipher) (key : List Byte) :
    List Byte → List (List Byte) → List (List Byte)
  | _, [] => []
  | prev, c :: cs => xorBytes (bc.decBlock key c) prev :: cbcDecBlocks bc key c cs

/-- CBC-mode encryption of a whole buffer, as performed by
`encryptor.update(padded) + encryptor.finalize()`. -/
def cbcEncrypt (bc : BlockCipher) (key iv data : List Byte) : List Byte :=
  (cbcEncBlocks bc key iv (toBlocks data)).flatten

/-- CBC-mode decryption of a whole buffer, as performed by
`decryptor.update(cipher_text) + decryptor.finalize()`. -/
def cbcDecrypt (bc : BlockCipher) (key iv data : List Byte) : List Byte :=
  (cbcDecBlocks bc key iv (toBlocks data)).flatten

/-- Source, `encrypt`: `iv = os.urandom(block_size)` (the generated IV is an
explicit argument here), `padded = self._pad(raw)`,
`cipher_text = encryptor.update(padded) + encryptor.finalize()`, and
`return base64.b64encode(cipher_text + iv)` — the ciphertext first and the
IV appended after it. -/
def AESCipher.encrypt (bc : BlockCipher) (key iv raw : List Byte) : List Byte :=
  b64encode (cbcEncrypt bc key iv (AESCipher._pad raw) ++ iv)

/-- Exceptions that `decrypt` can propagate: `binascii.Error` from
`base64.b64decode`; `ValueError` from `modes.CBC(iv)` when the IV is not one
block long; `ValueError` from `decryptor.finalize()` when the data length is
not a multiple of the block; and `IndexError` from `_unpad` on an empty
buffer.  There is no authentication failure: the source computes no tag. -/
inductive PyError where
  | binasciiError
  | invalidIVSize
  | notMultipleOfBlock
  | indexError
deriving DecidableEq

/-- Outcome of a `decrypt` call: the returned buffer or the raised exception. -/
inductive PyResult where
  | ok (data : List Byte)
  | raised (e : PyError)
deriving DecidableEq

/-- Source, `decrypt`: `raw = base64.b64decode(encoded)`,
`cipher_text = raw[:-block_size]`, `iv = raw[-block_size:]` (here written as
`take`/`drop` at `raw.length - block_size`, which matches Python slicing also
when `raw` is shorter than one block), then CBC decryption and `_unpad`.
The two guards model where the `cryptography` package raises: constructing
`modes.CBC(iv)` requires a 16-byte IV, and `finalize` requires the data to be
a multiple of the block size. -/
def AESCipher.decrypt (bc : BlockCipher) (key encoded : List Byte) : PyResult :=
  match b64decode encoded with
  | none => PyResult.raised PyError.binasciiError
  | some raw =>
    if (raw.drop (raw.length - AESCipher.block_size)).length = AESCipher.block_size then
      if (raw.take (raw.length - AESCipher.block_size)).length % AESCipher.block_size = 0 then
        match AESCipher._unpad (cbcDecrypt bc key (raw.drop (raw.length - AESCipher.block_size))
            (raw.take (raw.length - AESCipher.block_size))) with
        | none => PyResult.raised PyError.indexError
        | some p => PyResult.ok p
      else PyResult.raised PyError.notMultipleOfBlock
    else PyResult.raised PyError.invalidIVSize

/-- Length of the authentication-tag region of a sealed blob: the source
computes no tag, so the region is empty. -/
def tag_length : Nat := 0

/-- Concrete block permutation used to instantiate the external primitive in
witnesses: xor with the first 16 key bytes, an involution on 16-byte blocks. -/
def bcXor : BlockCipher where
  encBlock := fun key b => xorBytes b (key.take AESCipher.block_size)
  decBlock := fun key c => xorBytes c (key.take AESCipher.block_size)

/-- The all-zero 32-byte key of the specification's example scenario. -/
def key0 : List Byte := List.replicate 32 0

/-- An all-zero 16-byte IV for concrete witnesses. -/
def iv0 : List Byte := List.replicate 16 0

/-- The 5-byte plaintext of the specification's example scenario, the ASCII
bytes of the word hello. -/
def msgHello : List Byte := [104, 101, 108, 108, 111]

/-- Helper: length of a bytewise xor. -/
theorem xorBytes_length (a b : List Byte) :
    (xorBytes a b).length = min a.length b.length :=
  List.length_zipWith _ _ _

/-- Helper: xoring the same string twice on the right is the identity. -/
theorem xorBytes_cancel_right : ∀ (a p : List Byte), a.length = p.length →
    xorBytes (xorBytes a p) p = a
  | [], [], _ => rfl
  | [], _ :: _, h => by simp at h
  | _ :: _, [], h => by simp at h
  | x :: a, y :: p, h => by
    have ih := xorBytes_cancel_right a p (by simpa using h)
    simp only [xorBytes, List.zipWith_cons_cons] at ih ⊢
    rw [ih]
    have hx : xorByte (xorByte x y) y = x := by
      apply Fin.ext
      show (x.val ^^^ y.val) ^^^ y.val = x.val
      rw [Nat.xor_assoc, Nat.xor_self, Nat.xor_zero]
    rw [hx]

/-- Helper: the fuel argument of `toBlocksGo` is irrelevant as long as it
bounds the buffer length. -/
theorem toBlocksGo_congr : ∀ (f1 f2 : Nat) (l : List Byte), l.length ≤ f1 → l.length ≤ f2 →
    toBlocksGo f1 l = toBlocksGo f2 l := by
  intro f1
  induction f1 with
  | zero =>
    intro f2 l h1 h2
    have hl : l = [] := by
      cases l with
      | nil => rfl
      | cons a l' => simp at h1
    subst hl
    cases f2 <;> rfl
  | succ g ih =>
    intro f2 l h1 h2
    cases l with
    | nil => cases f2 <;> rfl
    | cons a l' =>
      cases f2 with
      | zero => simp at h2
      | succ g2 =>
        show (a :: l').take AESCipher.block_size ::
            toBlocksGo g ((a :: l').drop AESCipher.block_size) =
          (a :: l').take AESCipher.block_size ::
            toBlocksGo g2 ((a :: l').drop AESCipher.block_size)
        congr 1
        apply ih
        · simp only [List.length_drop, List.length_cons, block_size_eq] at h1 ⊢
          omega
        · simp only [List.length_drop, List.length_cons, block_size_eq] at h2 ⊢
          omega

/-- Helper: unfolding equation of `toBlocks` on the empty buffer. -/
theorem toBlocks_nil : toBlocks [] = [] := rfl

/-- Helper: unfolding equation of `toBlocks` on a nonempty buffer. -/
theorem toBlocks_cons (a : Byte) (l : List Byte) :
    toBlocks (a :: l) =
      (a :: l).take AESCipher.block_size :: toBlocks ((a :: l).drop AESCipher.block_size) := by
  show (a :: l).take AESCipher.block_size ::
      toBlocksGo l.length ((a :: l).drop AESCipher.block_size) =
    (a :: l).take AESCipher.block_size :: toBlocks ((a :: l).drop AESCipher.block_size)
  unfold toBlocks
  congr 1
  apply toBlocksGo_congr
  · simp only [List.length_drop, List.length_cons, block_size_eq]
    omega
  · exact Nat.le_refl _

/-- Helper: the concatenation of the blocks is the original buffer. -/
theorem flatten_toBlocks (l : List Byte) : (toBlocks l).flatten = l := by
  match l with
  | [] => rw [toBlocks_nil]; rfl
  | a :: l' =>
    rw [toBlocks_cons, List.flatten_cons, flatten_toBlocks ((a :: l').drop AESCipher.block_size)]
    exact List.take_append_drop _ _
termination_by l.length
decreasing_by simp only [List.length_drop, List.length_cons, block_size_eq]; omega

/-- Helper: when the buffer length is a multiple of the block size, every
block produced by `toBlocks` is exactly one block long. -/
theorem toBlocks_blocks_length (l : List Byte) (h : l.length % AESCipher.block_size = 0) :
    ∀ b ∈ toBlocks l, b.length = AESCipher.block_size := by
  match l with
  | [] => intro b hb; rw [toBlocks_nil] at hb; simp at hb
  | a :: l' =>
    intro b hb
    rw [toBlocks_cons] at hb
    rcases List.mem_cons.mp hb with hb | hb
    · subst hb
      rw [List.length_take]
      simp only [List.length_cons, block_size_eq] at h ⊢
      omega
    · refine toBlocks_blocks_length ((a :: l').drop AESCipher.block_size) ?_ b hb
      simp only [List.length_drop, List.length_cons, block_size_eq] at h ⊢
      omega
termination_by l.length
decreasing_by simp only [List.length_drop, List.length_cons, block_size_eq]; omega

/-- Helper: `toBlocks` applied to one full block followed by a remainder
splits off that block. -/
theorem toBlocks_block_append (b rest : List Byte) (hb : b.length = AESCipher.block_size) :
    toBlocks (b ++ rest) = b :: toBlocks rest := by
  obtain ⟨a, b', rfl⟩ : ∃ a b', b = a :: b' := by
    cases b with
    | nil => simp [block_size_eq] at hb
    | cons a b' => exact ⟨a, b', rfl⟩
  rw [List.cons_append, toBlocks_cons, ← List.cons_append, ← hb, List.take_left, List.drop_left]

/-- Helper: `toBlocks` inverts `flatten` on lists of full blocks. -/
theorem toBlocks_flatten (bs : List (List Byte))
    (h : ∀ b ∈ bs, b.length = AESCipher.block_size) :
    toBlocks bs.flatten = bs := by
  induction bs with
  | nil =>
    show toBlocks [] = []
    exact toBlocks_nil
  | cons b bs ih =>
    rw [List.flatten_cons, toBlocks_block_append b bs.flatten (h b (List.mem_cons_self b bs)),
      ih (fun x hx => h x (List.mem_cons_of_mem b hx))]

/-- Helper: the flattening of a list of full blocks has length 16 times the
number of blocks. -/
theorem flatten_length_blocks (bs : List (List Byte))
    (h : ∀ b ∈ bs, b.length = AESCipher.block_size) :
    bs.flatten.length = AESCipher.block_size * bs.length := by
  induction bs with
  | nil => rfl
  | cons b bs ih =>
    rw [List.flatten_cons, List.length_append, h b (List.mem_cons_self b bs),
      ih (fun x hx => h x (List.mem_cons_of_mem b hx)), List.length_cons]
    simp only [block_size_eq]
    omega

/-- Helper: CBC encryption outputs full blocks when fed full blocks. -/
theorem cbcEncBlocks_length (bc : BlockCipher) (key : List Byte) (hgood : GoodCipher bc key) :
    ∀ (prev : List Byte) (bs : List (List Byte)), prev.length = AESCipher.block_size →
      (∀ b ∈ bs, b.length = AESCipher.block_size) →
      ∀ c ∈ cbcEncBlocks bc key prev bs, c.length = AESCipher.block_size := by
  intro prev bs
  induction bs generalizing prev with
  | nil => intro _ _ c hc; simp [cbcEncBlocks] at hc
  | cons b bs ih =>
    intro hprev hbs c hc
    have hb : b.length = AESCipher.block_size := hbs b (List.mem_cons_self b bs)
    have hxor : (xorBytes b prev).length = AESCipher.block_size := by
      rw [xorBytes_length, hb, hprev]
      omega
    have henc : (bc.encBlock key (xorBytes b prev)).length = AESCipher.block_size :=
      hgood.1 _ hxor
    simp only [cbcEncBlocks] at hc
    rcases List.mem_cons.mp hc with hc | hc
    · subst hc; exact henc
    · exact ih _ henc (fun x hx => hbs x (List.mem_cons_of_mem b hx)) c hc

/-- Helper: CBC decryption outputs full blocks when fed full blocks. -/
theorem cbcDecBlocks_length (bc : BlockCipher) (key : List Byte) (hgood : GoodCipher bc key) :
    ∀ (prev : List Byte) (cs : List (List Byte)), prev.length = AESCipher.block_size →
      (∀ c ∈ cs, c.length = AESCipher.block_size) →
      ∀ p ∈ cbcDecBlocks bc key prev cs, p.length = AESCipher.block_size := by
  intro prev cs
  induction cs generalizing prev with
  | nil => intro _ _ p hp; simp [cbcDecBlocks] at hp
  | cons c cs ih =>
    intro hprev hcs p hp
    have hc : c.length = AESCipher.block_size := hcs c (List.mem_cons_self c cs)
    have hdec : (bc.decBlock key c).length = AESCipher.block_size := hgood.2.1 _ hc
    simp only [cbcDecBlocks] at hp
    rcases List.mem_cons.mp hp with hp | hp
    · subst hp
      rw [xorBytes_length, hdec, hprev]
      omega
    · exact ih _ hc (fun x hx => hcs x (List.mem_cons_of_mem c hx)) p hp

/-- Helper: CBC decryption chaining inverts CBC encryption chaining. -/
theorem cbcDecBlocks_cbcEncBlocks (bc : BlockCipher) (key : List Byte)
    (hgood : GoodCipher bc key) :
    ∀ (prev : List Byte) (bs : List (List Byte)), prev.length = AESCipher.block_size →
      (∀ b ∈ bs, b.length = AESCipher.block_size) →
      cbcDecBlocks bc key prev (cbcEncBlocks bc key prev bs) = bs := by
  intro prev bs
  induction bs generalizing prev with
  | nil => intro _ _; rfl
  | cons b bs ih =>
    intro hprev hbs
    have hb : b.length = AESCipher.block_size := hbs b (List.mem_cons_self b bs)
    have hxor : (xorBytes b prev).length = AESCipher.block_size := by
      rw [xorBytes_length, hb, hprev]
      omega
    have henc : (bc.encBlock key (xorBytes b prev)).length = AESCipher.block_size :=
      hgood.1 _ hxor
    simp only [cbcEncBlocks, cbcDecBlocks]
    rw [hgood.2.2 _ hxor, xorBytes_cancel_right b prev (by rw [hb, hprev]),
      ih _ henc (fun x hx => hbs x (List.mem_cons_of_mem b hx))]

/-- Helper: full decryption of a freshly encrypted buffer, at the level of
raw byte strings, for any block-aligned input. -/
theorem cbcDecrypt_cbcEncrypt (bc : BlockCipher) (key iv data : List Byte)
    (hgood : GoodCipher bc key) (hiv : iv.length = AESCipher.block_size)
    (hdata : data.length % AESCipher.block_size = 0) :
    cbcDecrypt bc key iv (cbcEncrypt bc key iv data) = data := by
  unfold cbcEncrypt cbcDecrypt
  have hblocks := toBlocks_blocks_length data hdata
  have hctblocks := cbcEncBlocks_length bc key hgood iv (toBlocks data) hiv hblocks
  rw [toBlocks_flatten _ hctblocks, cbcDecBlocks_cbcEncBlocks bc key hgood iv _ hiv hblocks,
    flatten_toBlocks]

/-- Helper: length of the CBC encryption of a block-aligned buffer. -/
theorem cbcEncrypt_length (bc : BlockCipher) (key iv data : List Byte)
    (hgood : GoodCipher bc key) (hiv : iv.length = AESCipher.block_size)
    (hdata : data.length % AESCipher.block_size = 0) :
    (cbcEncrypt bc key iv data).length = data.length := by
  unfold cbcEncrypt
  have hblocks := toBlocks_blocks_length data hdata
  have hctblocks := cbcEncBlocks_length bc key hgood iv (toBlocks data) hiv hblocks
  rw [flatten_length_blocks _ hctblocks]
  have hcount : ∀ (prev : List Byte) (bs : List (List Byte)),
      (cbcEncBlocks bc key prev bs).length = bs.length := by
    intro prev bs
    induction bs generalizing prev with
    | nil => rfl
    | cons b bs ih => simp only [cbcEncBlocks, List.length_cons, ih]
  rw [hcount]
  have := flatten_length_blocks (toBlocks data) hblocks
  rw [flatten_toBlocks] at this
  omega

/-- Helper: `decrypt` on an input whose base64 decoding succeeds, written
with the decoded buffer explicit. -/
theorem decrypt_eq_of_decode (bc : BlockCipher) (key encoded raw : List Byte)
    (h : b64decode encoded = some raw) :
    AESCipher.decrypt bc key encoded =
      if (raw.drop (raw.length - AESCipher.block_size)).length = AESCipher.block_size then
        if (raw.take (raw.length - AESCipher.block_size)).length % AESCipher.block_size = 0 then
          match AESCipher._unpad (cbcDecrypt bc key (raw.drop (raw.length - AESCipher.block_size))
              (raw.take (raw.length - AESCipher.block_size))) with
          | none => PyResult.raised PyError.indexError
          | some p => PyResult.ok p
        else PyResult.raised PyError.notMultipleOfBlock
      else PyResult.raised PyError.invalidIVSize := by
  unfold AESCipher.decrypt
  rw [h]

/-- Helper: length of the CBC decryption of a block-aligned buffer. -/
theorem cbcDecrypt_length (bc : BlockCipher) (key iv ct : List Byte)
    (hgood : GoodCipher bc key) (hiv : iv.length = AESCipher.block_size)
    (hct : ct.length % AESCipher.block_size = 0) :
    (cbcDecrypt bc key iv ct).length = ct.length := by
  unfold cbcDecrypt
  have hblocks := toBlocks_blocks_length ct hct
  have hpblocks := cbcDecBlocks_length bc key hgood iv (toBlocks ct) hiv hblocks
  rw [flatten_length_blocks _ hpblocks]
  have hcount : ∀ (prev : List Byte) (cs : List (List Byte)),
      (cbcDecBlocks bc key prev cs).length = cs.length := by
    intro prev cs
    induction cs generalizing prev with
    | nil => rfl
    | cons c cs ih => simp only [cbcDecBlocks, List.length_cons, ih]
  rw [hcount]
  have := flatten_length_blocks (toBlocks ct) hblocks
  rw [flatten_toBlocks] at this
  omega

/-- Helper: `_unpad` succeeds on every nonempty buffer. -/
theorem unpad_isSome_of_ne_nil (l : List Byte) (h : l ≠ []) :
    ∃ r, AESCipher._unpad l = some r := by
  by_cases hv : (l.getLast h).val = 0
  · exact ⟨[], by simp [AESCipher._unpad, List.getLast?_eq_getLast l h, hv]⟩
  · exact ⟨l.take (l.length - (l.getLast h).val),
      by simp [AESCipher._unpad, List.getLast?_eq_getLast l h, hv]⟩

/-- Helper: the xor instance satisfies the block-cipher contract for any key
of at least one block. -/
theorem bcXor_good (key : List Byte) (hkey : AESCipher.block_size ≤ key.length) :
    GoodCipher bcXor key := by
  have hk16 : (key.take AESCipher.block_size).length = AESCipher.block_size := by
    rw [List.length_take]
    omega
  refine ⟨?_, ?_, ?_⟩
  · intro b hb
    show (xorBytes b (key.take AESCipher.block_size)).length = AESCipher.block_size
    rw [xorBytes_length, hb, hk16]
    omega
  · intro c hc
    show (xorBytes c (key.take AESCipher.block_size)).length = AESCipher.block_size
    rw [xorBytes_length, hc, hk16]
    omega
  · intro b hb
    show xorBytes (xorBytes b (key.take AESCipher.block_size))
        (key.take AESCipher.block_size) = b
    exact xorBytes_cancel_right b _ (by rw [hb, hk16])

/-- Helper: decrypting a freshly encrypted buffer returns the plaintext, for
any block cipher meeting the contract and any one-block IV. -/
theorem decrypt_encrypt (bc : BlockCipher) (key iv p : List Byte)
    (hgood : GoodCipher bc key) (hiv : iv.length = AESCipher.block_size) :
    AESCipher.decrypt bc key (AESCipher.encrypt bc key iv p) = PyResult.ok p := by
  have hpadmod := pad_length_mod p
  have hct : (cbcEncrypt bc key iv (AESCipher._pad p)).length = (AESCipher._pad p).length :=
    cbcEncrypt_length bc key iv _ hgood hiv hpadmod
  rw [show AESCipher.encrypt bc key iv p =
      b64encode (cbcEncrypt bc key iv (AESCipher._pad p) ++ iv) from rfl]
  rw [decrypt_eq_of_decode bc key _ (cbcEncrypt bc key iv (AESCipher._pad p) ++ iv)
    (b64_roundtrip _)]
  have harith : (cbcEncrypt bc key iv (AESCipher._pad p) ++ iv).length -
      AESCipher.block_size = (cbcEncrypt bc key iv (AESCipher._pad p)).length := by
    rw [List.length_append, hiv]
    omega
  rw [harith, List.drop_left, List.take_left, if_pos hiv,
    if_pos (by rw [hct]; exact hpadmod),
    cbcDecrypt_cbcEncrypt bc key iv (AESCipher._pad p) hgood hiv hpadmod, unpad_pad]

/-- C2: for every plaintext `p` (the empty sequence included), every 32-byte
key and every one-block IV, decrypting the result of encrypting `p` returns
exactly `p`, assuming only the external block-cipher contract. -/
theorem C2_seal_open_roundtrip (bc : BlockCipher) (key iv p : List Byte)
    (hgood : GoodCipher bc key) (hkey : key.length = 32)
    (hiv : iv.length = AESCipher.block_size) :
    AESCipher.decrypt bc key (AESCipher.encrypt bc key iv p) = PyResult.ok p :=
  decrypt_encrypt bc key iv p hgood hiv

/-- C2 witness: the round trip on the example scenario (all-zero key and IV,
plaintext hello) under the concrete xor block permutation. -/
theorem C2_seal_open_roundtrip_witness :
    AESCipher.decrypt bcXor key0 (AESCipher.encrypt bcXor key0 iv0 msgHello) =
      PyResult.ok msgHello :=
  C2_seal_open_roundtrip bcXor key0 iv0 msgHello (bcXor_good key0 (by decide)) (by decide)
    (by decide)

/-- C1 (amended): the source computes no authentication tag and verifies
nothing before decrypting, so `open` can never fail with an authentication
error: every blob whose decoded form is block-aligned with at least two
blocks — bit-flipped or not — is decrypted, unpadded, and returned as a
plaintext. -/
theorem C1_no_authentication (bc : BlockCipher) (key encoded raw : List Byte)
    (hgood : GoodCipher bc key) (hdec : b64decode encoded = some raw)
    (hmod : raw.length % AESCipher.block_size = 0)
    (hlen : 2 * AESCipher.block_size ≤ raw.length) :
    ∃ p, AESCipher.decrypt bc key encoded = PyResult.ok p := by
  rw [decrypt_eq_of_decode bc key encoded raw hdec]
  have hbspos : 0 < AESCipher.block_size := by rw [block_size_eq]; omega
  have hiv : (raw.drop (raw.length - AESCipher.block_size)).length = AESCipher.block_size := by
    rw [List.length_drop]
    omega
  have hctlen : (raw.take (raw.length - AESCipher.block_size)).length =
      raw.length - AESCipher.block_size := by
    rw [List.length_take]
    omega
  have hctmod : (raw.take (raw.length - AESCipher.block_size)).length %
      AESCipher.block_size = 0 := by
    rw [hctlen]
    rw [block_size_eq] at hmod hlen ⊢
    omega
  rw [if_pos hiv, if_pos hctmod]
  have hplen : (cbcDecrypt bc key (raw.drop (raw.length - AESCipher.block_size))
      (raw.take (raw.length - AESCipher.block_size))).length =
      (raw.take (raw.length - AESCipher.block_size)).length :=
    cbcDecrypt_length bc key _ _ hgood hiv hctmod
  have hne : cbcDecrypt bc key (raw.drop (raw.length - AESCipher.block_size))
      (raw.take (raw.length - AESCipher.block_size)) ≠ [] := by
    apply List.length_pos.mp
    rw [hplen, hctlen]
    omega
  obtain ⟨r, hr⟩ := unpad_isSome_of_ne_nil _ hne
  rw [hr]
  exact ⟨r, rfl⟩

/-- C1 witness: a well-formed two-block blob is decrypted to a returned
plaintext (no authentication failure is possible). -/
theorem C1_no_authentication_witness :
    ∃ p, AESCipher.decrypt bcXor key0 (b64encode (List.replicate 32 (0 : Byte))) =
      PyResult.ok p :=
  C1_no_authentication bcXor key0 (b64encode (List.replicate 32 (0 : Byte)))
    (List.replicate 32 (0 : Byte)) (bcXor_good key0 (by decide)) (b64_roundtrip _)
    (by decide) (by decide)

/-- C1 counterexample: sealing hello under the all-zero key and IV yields the
decoded blob `[104, 101, 108, 108, 111] ++ pad ++ iv`; flipping the lowest
bit of the first ciphertext byte (0x68 to 0x69) is not detected: `decrypt`
returns the corrupted plaintext (the bytes of iello) instead of failing with
an authentication error, contradicting the claim that any single-bit flip in
the ciphertext region makes `open` fail and never return plaintext. -/
theorem C1_no_authentication_cex :
    cbcEncrypt bcXor key0 iv0 (AESCipher._pad msgHello) ++ iv0 =
      ([104, 101, 108, 108, 111] ++ List.replicate 11 11 ++ List.replicate 16 0 : List Byte) ∧
    AESCipher.decrypt bcXor key0
        (b64encode ([105, 101, 108, 108, 111] ++ List.replicate 11 11 ++
          List.replicate 16 0)) =
      PyResult.ok [105, 101, 108, 108, 111] := by
  decide

/-- C3 (amended): the sealed blob is `base64(ciphertext ++ IV)`: the
ciphertext (as long as the padded plaintext) comes first and the IV occupies
the last 16 decoded bytes; there is no tag region. -/
theorem C3_blob_layout (bc : BlockCipher) (key iv p : List Byte)
    (hgood : GoodCipher bc key) (hiv : iv.length = AESCipher.block_size) :
    b64decode (AESCipher.encrypt bc key iv p) =
      some (cbcEncrypt bc key iv (AESCipher._pad p) ++ iv) ∧
    (cbcEncrypt bc key iv (AESCipher._pad p) ++ iv).drop
      ((cbcEncrypt bc key iv (AESCipher._pad p) ++ iv).length - AESCipher.block_size) = iv ∧
    (cbcEncrypt bc key iv (AESCipher._pad p)).length = (AESCipher._pad p).length := by
  have hct := cbcEncrypt_length bc key iv (AESCipher._pad p) hgood hiv (pad_length_mod p)
  refine ⟨b64_roundtrip _, ?_, hct⟩
  have harith : (cbcEncrypt bc key iv (AESCipher._pad p) ++ iv).length -
      AESCipher.block_size = (cbcEncrypt bc key iv (AESCipher._pad p)).length := by
    rw [List.length_append, hiv]
    omega
  rw [harith, List.drop_left]

/-- C3 witness: the decoded blob layout on the example scenario. -/
theorem C3_blob_layout_witness :
    b64decode (AESCipher.encrypt bcXor key0 iv0 msgHello) =
      some (cbcEncrypt bcXor key0 iv0 (AESCipher._pad msgHello) ++ iv0) :=
  (C3_blob_layout bcXor key0 iv0 msgHello (bcXor_good key0 (by decide)) (by decide)).1

/-- C3 counterexample: on the example blob the first 16 decoded bytes are not
the IV (they are the ciphertext block), while the IV occupies the last 16
decoded bytes — the source arranges `ciphertext || IV`, not
`IV || ciphertext || tag` as claimed. -/
theorem C3_blob_layout_cex :
    (b64decode (AESCipher.encrypt bcXor key0 iv0 msgHello)).map
        (List.take AESCipher.block_size) ≠ some iv0 ∧
    (b64decode (AESCipher.encrypt bcXor key0 iv0 msgHello)).map
        (fun r => r.drop (r.length - AESCipher.block_size)) = some iv0 := by
  decide

/-- C7 (amended): the source performs no minimum-length validation on `open`:
a decoded blob of exactly one block is split into a 16-byte IV and an empty
ciphertext, the cipher is run, and the call fails only afterwards with the
`IndexError` raised by `_unpad` on the empty buffer; a decoded blob shorter
than one block fails with the `ValueError` of `modes.CBC` on a short IV.
Neither failure is a malformed-input rejection made before decryption. -/
theorem C7_no_min_length_check (bc : BlockCipher) (key encoded raw : List Byte)
    (hdec : b64decode encoded = some raw) :
    (raw.length = AESCipher.block_size →
      AESCipher.decrypt bc key encoded = PyResult.raised PyError.indexError) ∧
    (raw.length < AESCipher.block_size →
      AESCipher.decrypt bc key encoded = PyResult.raised PyError.invalidIVSize) := by
  rw [decrypt_eq_of_decode bc key encoded raw hdec]
  constructor
  · intro h
    have h0 : raw.length - AESCipher.block_size = 0 := by omega
    rw [h0, List.drop_zero, List.take_zero, if_pos h, if_pos (by simp)]
    have hemp : cbcDecrypt bc key raw [] = [] := by
      unfold cbcDecrypt
      rw [toBlocks_nil]
      rfl
    rw [hemp]
    rfl
  · intro h
    have h0 : raw.length - AESCipher.block_size = 0 := by omega
    rw [h0, List.drop_zero, if_neg (by omega)]

/-- C7 witness: a 16-byte decoded blob (below the specified minimum) reaches
decryption and fails with `IndexError`, not with a malformed-input error. -/
theorem C7_no_min_length_check_witness :
    AESCipher.decrypt bcXor key0 (b64encode (List.replicate 16 (0 : Byte))) =
      PyResult.raised PyError.indexError :=
  (C7_no_min_length_check bcXor key0 (b64encode (List.replicate 16 (0 : Byte)))
    (List.replicate 16 (0 : Byte)) (b64_roundtrip _)).1 (by decide)

/-- C7 counterexample: for the one-block blob (decoded length 16, below the
claimed minimum of IV plus tag plus one block), base64 decoding succeeds and
`decrypt` raises `IndexError` from `_unpad` after running the cipher on the
empty ciphertext — not a `MalformedInput` rejection before any decryption as
the claim requires. -/
theorem C7_no_min_length_check_cex :
    b64decode (b64encode (List.replicate 16 (0 : Byte))) =
      some (List.replicate 16 (0 : Byte)) ∧
    AESCipher.decrypt bcXor key0 (b64encode (List.replicate 16 (0 : Byte))) =
      PyResult.raised PyError.indexError := by
  decide

/-- C8: the decoded length of a sealed blob is a function of the plaintext
length alone, namely `len + (16 - len mod 16) + 16 + tag_length` with
`tag_length = 0` (the source computes no tag); in particular sealing the
5-byte plaintext hello produces a decoded blob of 16 + 16 + tag_length
bytes, and opening that exact blob returns hello. -/
theorem C8_output_length (bc : BlockCipher) (key iv : List Byte)
    (hgood : GoodCipher bc key) (hkey : key.length = 32)
    (hiv : iv.length = AESCipher.block_size) :
    (∀ p : List Byte, (b64decode (AESCipher.encrypt bc key iv p)).map List.length =
      some (p.length + (AESCipher.block_size - p.length % AESCipher.block_size) +
        AESCipher.block_size + tag_length)) ∧
    (b64decode (AESCipher.encrypt bc key iv msgHello)).map List.length =
      some (AESCipher.block_size + AESCipher.block_size + tag_length) ∧
    AESCipher.decrypt bc key (AESCipher.encrypt bc key iv msgHello) =
      PyResult.ok msgHello := by
  have hall : ∀ p : List Byte, (b64decode (AESCipher.encrypt bc key iv p)).map List.length =
      some (p.length + (AESCipher.block_size - p.length % AESCipher.block_size) +
        AESCipher.block_size + tag_length) := by
    intro p
    rw [show AESCipher.encrypt bc key iv p =
        b64encode (cbcEncrypt bc key iv (AESCipher._pad p) ++ iv) from rfl,
      b64_roundtrip]
    show some (cbcEncrypt bc key iv (AESCipher._pad p) ++ iv).length = _
    congr 1
    rw [List.length_append, cbcEncrypt_length bc key iv _ hgood hiv (pad_length_mod p),
      pad_length, hiv]
    show _ = _ + _ + _ + tag_length
    rw [show tag_length = 0 from rfl]
    omega
  refine ⟨hall, ?_, decrypt_encrypt bc key iv msgHello hgood hiv⟩
  rw [hall msgHello]
  rfl

/-- C8 witness: the blob length and round trip on the concrete example. -/
theorem C8_output_length_witness :
    (b64decode (AESCipher.encrypt bcXor key0 iv0 msgHello)).map List.length =
      some (AESCipher.block_size + AESCipher.block_size + tag_length) ∧
    AESCipher.decrypt bcXor key0 (AESCipher.encrypt bcXor key0 iv0 msgHello) =
      PyResult.ok msgHello :=
  ⟨(C8_output_length bcXor key0 iv0 (bcXor_good key0 (by decide)) (by decide)
      (by decide)).2.1,
   (C8_output_length bcXor key0 iv0 (bcXor_good key0 (by decide)) (by decide)
      (by decide)).2.2⟩
